import Mathlib

/-!
Shallow embedding of the cell-oriented DHT access layer in
`src/network/client.rs`: the cell codec (`DHTCell::dht_record`, the
reference-string key), the batched fetch orchestrator
(`Client::fetch_cells_from_dht` built on `Client::fetch_cell_from_dht`),
and the batched publish orchestrator (`Client::insert_into_dht`).

The external DHT engine is modelled as an oracle: `get` is a function from
a record key to `Except` (transport error or a list of peer records), and
`put` is a function from a record to `Except` (transport error or unit).
Each orchestrator call issues every request against the same oracle, which
captures exactly the request/response behaviour the Rust code observes
through its command channel; scheduling (chunked `join_all`,
`for_each_concurrent`) only changes completion order, which the code
neutralises by zipping results against the input list (fetch) and by a
commutative counter increment (publish), so the functional model folds the
requests in input order.

Machine integers (`u32` block numbers, byte values, counters) are modelled
as `Nat`; the `f32` success ratio of `insert_into_dht` is modelled exactly
over `Rat`.
-/

namespace Avail

/-- Modelled from the spec (the `kate_recovery::matrix::Position` type is
not under `src/`): row/column coordinates of a cell within a block's
matrix, equality by (row, col). -/
structure Position where
  row : Nat
  col : Nat
deriving DecidableEq, Repr

/-- Commitment proof size in bytes. The `kate_recovery::config` constants
are not under `src/`; the code's own log line for a failed conversion says
"Cannot convert cell ... into 80 bytes", and the spec fixes the payload at
`COMMITMENT_SIZE + CHUNK_SIZE`. -/
def COMMITMENT_SIZE : Nat := 48

/-- Data chunk size in bytes; see `COMMITMENT_SIZE`. -/
def CHUNK_SIZE : Nat := 32

/-- Modelled from the spec (the `kate_recovery::data::Cell` type is not
under `src/`): a position plus a payload (`content : [u8; 80]` in Rust,
a byte list here; the fixed length is carried as a hypothesis where it
matters). -/
structure Cell where
  position : Position
  content : List Nat
deriving DecidableEq, Repr

/-- Modelled from the spec (the `kate_recovery` reference function is not
under `src/`): the stable string reference, a "{row}:{col}:{block}"-style
key, each component in decimal. -/
def Position.reference (p : Position) (block : Nat) : String :=
  Nat.repr p.row ++ ":" ++ Nat.repr p.col ++ ":" ++ Nat.repr block

/-- `Cell::reference` delegates to the position's reference string. -/
def Cell.reference (c : Cell) (block : Nat) : String :=
  c.position.reference block

/-- A libp2p Kademlia record: key bytes (always the bytes of a reference
string here, modelled as the string itself since `str::as_bytes` is
injective), value bytes, optional publisher, optional expiry instant. -/
structure Record where
  key : String
  value : List Nat
  publisher : Option Nat
  expires : Option Nat
deriving DecidableEq, Repr

/-- A record together with the peer it came from; the code only ever reads
`peer_record.record`, so the peer id is omitted. -/
structure PeerRecord where
  record : Record
deriving DecidableEq, Repr

/-- `Instant::now().checked_add(Duration::from_secs(ttl))` with the
current instant passed in explicitly; `Instant` overflow is outside the
model, so the sum always exists. -/
def Instant.checkedAdd (now ttl : Nat) : Option Nat :=
  some (now + ttl)

/-- `DHTCell::dht_record`: key = bytes of the reference string, value =
the cell's content bytes, publisher = `None`, expires = now + ttl. -/
def DHTCell.dht_record (c : Cell) (block : Nat) (ttl : Nat) (now : Nat) : Record :=
  { key := c.reference block
    value := c.content
    publisher := none
    expires := Instant.checkedAdd now ttl }

/-- The `get` side of the DHT access port: one outstanding
`Command::GetKadRecord` exchange, keyed by the record key, answered with
a list of peer records or a transport/engine error. -/
abbrev GetOracle := String → Except String (List PeerRecord)

/-- The `put` side of the DHT access port: one outstanding
`Command::PutKadRecord` exchange, answered with unit or a
transport/engine error. -/
abbrev PutOracle := Record → Except String Unit

/-- `Client::fetch_cell_from_dht`: derive the record key from the
position's reference, `get` it with `Quorum::One`; on error return `None`
(cell treated as not found), on success take only the first record of the
list, and convert its value to a `[u8; COMMITMENT_SIZE + CHUNK_SIZE]`
payload, failing (i.e. `None`) when the length differs; the returned
cell's position is a clone of the queried position. -/
def fetch_cell_from_dht (get : GetOracle) (block_number : Nat)
    (position : Position) : Option Cell :=
  match get (position.reference block_number) with
  | Except.ok peer_records =>
    match peer_records with
    | [] => none
    | peer_record :: _ =>
      if peer_record.record.value.length = COMMITMENT_SIZE + CHUNK_SIZE then
        some { position := position, content := peer_record.record.value }
      else
        none
  | Except.error _ => none

/-- Rust `slice::chunks(n)`: consecutive sub-slices of length `n`, the
last possibly shorter, none empty (for `n ≥ 1`; Rust panics at `n = 0`,
so every theorem touching chunking assumes a positive limit). -/
def chunks (n : Nat) : List α → List (List α)
  | [] => []
  | x :: xs => (x :: List.take (n - 1) xs) :: chunks n (List.drop (n - 1) xs)
termination_by l => l.length
decreasing_by
  simp only [List.length_drop, List.length_cons]
  omega

/-- `Client::fetch_cells_from_dht`: walk the positions in chunks of size
`dht_parallelization_limit`, fetch each chunk's cells through the get
oracle (the chunked `join_all` resolves every request of a chunk before
the next chunk starts, and the results come back in input order), extend
the accumulator, then split: `unfetched` zips the per-position results
with the input positions and keeps the positions whose result is `None`;
`fetched` flattens the successful results. -/
def fetch_cells_from_dht (get : GetOracle) (dht_parallelization_limit : Nat)
    (block_number : Nat) (positions : List Position) :
    List Cell × List Position :=
  let cells : List (Option Cell) :=
    (chunks dht_parallelization_limit positions).foldl
      (fun acc chunk =>
        acc ++ chunk.map (fetch_cell_from_dht get block_number)) []
  let unfetched :=
    ((cells.zip positions).filter (fun cp => cp.1.isNone)).map (fun cp => cp.2)
  let fetched := cells.filterMap id
  (fetched, unfetched)

/-- One iteration of the `for_each_concurrent` body of
`Client::insert_into_dht`: `put` the cell's record with `Quorum::One` and
bump the shared failure counter when it fails. The increments commute, so
folding them in input order yields the same final counter as any
interleaving of the concurrent tasks. -/
def insertStep (put : PutOracle) (block ttl now : Nat) (counter : Nat)
    (cell : Cell) : Nat :=
  match put (DHTCell.dht_record cell block ttl now) with
  | Except.ok _ => counter
  | Except.error _ => counter + 1

/-- `Client::insert_into_dht`: `1.0` for an empty batch, otherwise put
every cell's record (failures only increment the shared counter) and
return `1 - failures / total`. The `f32` arithmetic is modelled exactly
over `Rat`; the parallelization limit only bounds concurrency and does
not influence the result. -/
def insert_into_dht (put : PutOracle) (ttl now : Nat) (block : Nat)
    (cells : List Cell) : Rat :=
  if cells.isEmpty then 1
  else
    let failure_counter := cells.foldl (insertStep put block ttl now) 0
    1 - (failure_counter : Rat) / (cells.length : Rat)

/-- Whether the put of cell `c`'s record fails against `put`; the
observable that drives the failure counter. -/
def putFailed (put : PutOracle) (block ttl now : Nat) (c : Cell) : Bool :=
  match put (DHTCell.dht_record c block ttl now) with
  | Except.ok _ => false
  | Except.error _ => true

/-- Decimal digit characters of `n`, most significant first: a fuel-free
counterpart of core's `Nat.toDigits 10`, used to reason about
`Nat.repr`. -/
def decChars (n : Nat) : List Char :=
  if n < 10 then [Nat.digitChar n]
  else decChars (n / 10) ++ [Nat.digitChar (n % 10)]
termination_by n
decreasing_by
  exact Nat.div_lt_self (by omega) (by omega)

/-- `chunks` of the empty list is empty. -/
theorem chunks_nil (n : Nat) : chunks n ([] : List α) = [] := by
  rw [chunks]

/-- Unfolding `chunks` on a nonempty list: the head chunk followed by the
chunks of the remainder. -/
theorem chunks_cons (n : Nat) (x : α) (xs : List α) :
    chunks n (x :: xs)
      = (x :: List.take (n - 1) xs) :: chunks n (List.drop (n - 1) xs) := by
  rw [chunks]

/-- Fetching chunk by chunk and extending an accumulator is the same as
mapping over the whole input list: the chunked loop loses nothing and
keeps input order. -/
theorem foldl_chunks_map (f : α → β) (n : Nat) :
    (l : List α) → (acc : List β) →
    (chunks n l).foldl (fun a c => a ++ c.map f) acc = acc ++ l.map f
  | [], acc => by simp [chunks_nil]
  | x :: xs, acc => by
    rw [chunks_cons, List.foldl_cons,
        foldl_chunks_map f n (List.drop (n - 1) xs)]
    rw [List.append_assoc, ← List.map_append, List.cons_append,
        List.take_append_drop]
termination_by l _ => l.length
decreasing_by
  simp only [List.length_drop, List.length_cons]
  omega

/-- Zipping per-position results against the input positions and keeping
the positions whose result is `none` is filtering the input list on that
result. -/
theorem zip_map_filter_none (f : α → Option β) :
    (l : List α) →
    (((l.map f).zip l).filter (fun cp => cp.1.isNone)).map (fun cp => cp.2)
      = l.filter (fun p => (f p).isNone)
  | [] => rfl
  | x :: xs => by
    simp only [List.map_cons, List.zip_cons_cons, List.filter_cons]
    cases h : f x <;> simp [h, zip_map_filter_none f xs]

/-- The batched fetch is extensionally the per-position fetch: `fetched`
is the input filter-mapped through the single-cell fetch, `unfetched` the
input filtered to the positions where it returns `none` — both in input
order. -/
theorem fetch_cells_from_dht_eq (get : GetOracle) (limit block : Nat)
    (positions : List Position) :
    fetch_cells_from_dht get limit block positions
      = (positions.filterMap (fetch_cell_from_dht get block),
         positions.filter
           (fun p => (fetch_cell_from_dht get block p).isNone)) := by
  unfold fetch_cells_from_dht
  rw [foldl_chunks_map, List.nil_append]
  dsimp only
  rw [zip_map_filter_none, List.filterMap_map]
  rfl

/-- A cell returned by the per-position fetch carries the queried
position. -/
theorem fetch_cell_position (get : GetOracle) (b : Nat) (p : Position)
    (c : Cell) (h : fetch_cell_from_dht get b p = some c) : c.position = p := by
  unfold fetch_cell_from_dht at h
  cases hg : get (p.reference b) with
  | error e => rw [hg] at h; exact absurd h (by simp)
  | ok rs =>
    rw [hg] at h
    cases rs with
    | nil => exact absurd h (by simp)
    | cons r rest =>
      by_cases hl : r.record.value.length = COMMITMENT_SIZE + CHUNK_SIZE
      · simp only [hl, if_true, Option.some.injEq] at h
        rw [← h]
      · simp [hl] at h

/-- A transport/engine error on the `get` is recovered as "not found". -/
theorem fetch_cell_error (get : GetOracle) (b : Nat) (p : Position)
    (e : String) (h : get (p.reference b) = Except.error e) :
    fetch_cell_from_dht get b p = none := by
  unfold fetch_cell_from_dht
  rw [h]

/-- A successful `get` with an empty record list is "not found". -/
theorem fetch_cell_nil (get : GetOracle) (b : Nat) (p : Position)
    (h : get (p.reference b) = Except.ok []) :
    fetch_cell_from_dht get b p = none := by
  unfold fetch_cell_from_dht
  rw [h]

/-- A successful `get` with a nonempty record list decodes exactly the
first record: length-80 value gives a cell at the queried position, any
other length gives "not found"; the remaining records never matter. -/
theorem fetch_cell_first (get : GetOracle) (b : Nat) (p : Position)
    (r : PeerRecord) (rest : List PeerRecord)
    (h : get (p.reference b) = Except.ok (r :: rest)) :
    fetch_cell_from_dht get b p
      = if r.record.value.length = COMMITMENT_SIZE + CHUNK_SIZE
        then some { position := p, content := r.record.value }
        else none := by
  unfold fetch_cell_from_dht
  rw [h]

/-- Mapping the returned cells back to their positions filters the input
to the successfully fetched positions, in input order. -/
theorem map_position_filterMap (f : Position → Option Cell)
    (hf : ∀ p c, f p = some c → c.position = p) :
    (l : List Position) →
    (l.filterMap f).map Cell.position = l.filter (fun p => (f p).isSome)
  | [] => rfl
  | x :: xs => by
    rw [List.filterMap_cons]
    cases h : f x with
    | none => simp [h, map_position_filterMap f hf xs]
    | some c => simp [h, map_position_filterMap f hf xs, hf x c h]

/-- The failure counter fold counts exactly the cells whose put failed. -/
theorem insert_foldl (put : PutOracle) (b ttl now : Nat) :
    (cells : List Cell) → (c0 : Nat) →
    cells.foldl (insertStep put b ttl now) c0
      = c0 + (cells.filter (putFailed put b ttl now)).length
  | [], c0 => by simp
  | c :: cs, c0 => by
    rw [List.foldl_cons, insert_foldl put b ttl now cs]
    unfold insertStep putFailed
    cases h : put (DHTCell.dht_record c b ttl now) with
    | ok v => simp [h, List.filter_cons, putFailed]
    | error e =>
      simp [h, List.filter_cons, putFailed]
      omega

/-- On a nonempty batch the publish ratio is `1 - failures / total`, the
failures being exactly the cells whose individual put failed. -/
theorem insert_into_dht_eq (put : PutOracle) (ttl now b : Nat)
    (cells : List Cell) (h : cells ≠ []) :
    insert_into_dht put ttl now b cells
      = 1 - ((cells.filter (putFailed put b ttl now)).length : Rat)
            / (cells.length : Rat) := by
  unfold insert_into_dht
  rw [if_neg (by simpa using h), insert_foldl]
  simp

/-- Equation for `decChars` below 10. -/
theorem decChars_lt (n : Nat) (h : n < 10) : decChars n = [Nat.digitChar n] := by
  rw [decChars, if_pos h]

/-- Equation for `decChars` from 10 up. -/
theorem decChars_ge (n : Nat) (h : 10 ≤ n) :
    decChars n = decChars (n / 10) ++ [Nat.digitChar (n % 10)] := by
  rw [decChars, if_neg (by omega)]

/-- Core's fuelled digit loop computes `decChars` whenever the fuel
exceeds the number. -/
theorem toDigitsCore_eq_decChars :
    (fuel : Nat) → (n : Nat) → (acc : List Char) → n < fuel →
    Nat.toDigitsCore 10 fuel n acc = decChars n ++ acc
  | 0, _, _, h => absurd h (by omega)
  | fuel + 1, n, acc, h => by
    simp only [Nat.toDigitsCore]
    by_cases h0 : n / 10 = 0
    · have hn : n < 10 := by omega
      rw [if_pos h0, decChars_lt n hn, Nat.mod_eq_of_lt hn]
      rfl
    · have h10 : 10 ≤ n := by omega
      have hf : n / 10 < fuel := by omega
      rw [if_neg h0, toDigitsCore_eq_decChars fuel (n / 10) _ hf,
          decChars_ge n h10]
      simp

/-- `Nat.repr` renders exactly the decimal digit characters. -/
theorem repr_data (n : Nat) : (Nat.repr n).data = decChars n := by
  show (Nat.toDigits 10 n).asString.data = decChars n
  rw [Nat.toDigits, toDigitsCore_eq_decChars (n + 1) n [] (by omega)]
  simp [List.asString]

/-- Digit characters of values below 10 are never the colon separator. -/
theorem digitChar_ne_colon (n : Nat) (h : n < 10) : Nat.digitChar n ≠ ':' := by
  interval_cases n <;> decide

/-- Digit characters are injective below 10. -/
theorem digitChar_inj (a b : Nat) (ha : a < 10) (hb : b < 10) :
    Nat.digitChar a = Nat.digitChar b → a = b := by
  interval_cases a <;> interval_cases b <;> decide

/-- Decimal renderings contain no colon. -/
theorem decChars_ne_colon : (n : Nat) → ∀ c ∈ decChars n, c ≠ ':'
  | n => by
    by_cases h : n < 10
    · rw [decChars_lt n h]
      intro c hc
      simp only [List.mem_singleton] at hc
      subst hc
      exact digitChar_ne_colon n h
    · rw [decChars_ge n (by omega)]
      intro c hc
      rcases List.mem_append.mp hc with h1 | h2
      · exact decChars_ne_colon (n / 10) c h1
      · simp only [List.mem_singleton] at h2
        subst h2
        exact digitChar_ne_colon _ (Nat.mod_lt n (by omega))
termination_by n => n
decreasing_by exact Nat.div_lt_self (by omega) (by omega)

/-- Decimal renderings are never empty. -/
theorem decChars_ne_nil (n : Nat) : decChars n ≠ [] := by
  by_cases h : n < 10
  · rw [decChars_lt n h]
    simp
  · rw [decChars_ge n (by omega)]
    simp

/-- Decimal rendering is injective. -/
theorem decChars_inj : (a : Nat) → (b : Nat) → decChars a = decChars b → a = b
  | a, b, h => by
    by_cases ha : a < 10 <;> by_cases hb : b < 10
    · rw [decChars_lt a ha, decChars_lt b hb] at h
      simp only [List.cons.injEq, and_true] at h
      exact digitChar_inj a b ha hb h
    · rw [decChars_lt a ha, decChars_ge b (by omega)] at h
      have hl := congrArg List.length h
      simp only [List.length_singleton, List.length_append,
        List.length_singleton] at hl
      exact absurd (List.length_eq_zero.mp (by omega))
        (decChars_ne_nil (b / 10))
    · rw [decChars_ge a (by omega), decChars_lt b hb] at h
      have hl := congrArg List.length h
      simp only [List.length_singleton, List.length_append,
        List.length_singleton] at hl
      exact absurd (List.length_eq_zero.mp (by omega))
        (decChars_ne_nil (a / 10))
    · rw [decChars_ge a (by omega), decChars_ge b (by omega)] at h
      have hl := congrArg List.length h
      simp only [List.length_append, List.length_singleton] at hl
      obtain ⟨h1, h2⟩ := List.append_inj h (by omega)
      have hq := decChars_inj (a / 10) (b / 10) h1
      simp only [List.cons.injEq, and_true] at h2
      have hr := digitChar_inj _ _ (Nat.mod_lt a (by omega))
        (Nat.mod_lt b (by omega)) h2
      omega
termination_by a _ => a
decreasing_by exact Nat.div_lt_self (by omega) (by omega)

/-- Splitting a character list at the first colon is unambiguous when
both prefixes are colon-free. -/
theorem colon_split : (a : List Char) → (b : List Char) → (u v : List Char) →
    (∀ c ∈ a, c ≠ ':') → (∀ c ∈ b, c ≠ ':') →
    a ++ ':' :: u = b ++ ':' :: v → a = b ∧ u = v
  | [], [], u, v, _, _, h => by
    simp only [List.nil_append, List.cons.injEq, true_and] at h
    exact ⟨rfl, h⟩
  | [], c :: b, u, v, _, hb, h => by
    simp only [List.nil_append, List.cons_append, List.cons.injEq] at h
    exact absurd h.1.symm (hb c (by simp))
  | c :: a, [], u, v, ha, _, h => by
    simp only [List.nil_append, List.cons_append, List.cons.injEq] at h
    exact absurd h.1 (ha c (by simp))
  | c :: a, d :: b, u, v, ha, hb, h => by
    simp only [List.cons_append, List.cons.injEq] at h
    obtain ⟨hcd, h2⟩ := h
    obtain ⟨h3, h4⟩ := colon_split a b u v
      (fun x hx => ha x (by simp [hx])) (fun x hx => hb x (by simp [hx])) h2
    exact ⟨by rw [hcd, h3], h4⟩

/-- The reference string's characters: decimal row, colon, decimal
column, colon, decimal block. -/
theorem reference_data (p : Position) (b : Nat) :
    (p.reference b).data
      = decChars p.row ++ ':' :: (decChars p.col ++ ':' :: decChars b) := by
  show (Nat.repr p.row ++ ":" ++ Nat.repr p.col ++ ":" ++ Nat.repr b).data = _
  simp only [String.data_append, repr_data]
  simp [List.append_assoc]

/-- Positions with equal reference strings for one block are equal. -/
theorem reference_inj (b : Nat) (p q : Position)
    (h : p.reference b = q.reference b) : p = q := by
  have hd := congrArg String.data h
  rw [reference_data, reference_data] at hd
  obtain ⟨h1, h2⟩ := colon_split _ _ _ _ (decChars_ne_colon p.row)
    (decChars_ne_colon q.row) hd
  obtain ⟨h3, h4⟩ := colon_split _ _ _ _ (decChars_ne_colon p.col)
    (decChars_ne_colon q.col) h2
  have hr := decChars_inj _ _ h1
  have hc := decChars_inj _ _ h3
  have hb := decChars_inj _ _ h4
  cases p
  cases q
  simp_all

/-- C1: for every block number and every list of positions (duplicates
included), with the positive parallelization limit the code requires,
`fetch_cells_from_dht` returns a pair whose sizes sum to the input size,
whose position occurrences are exactly the input occurrences — every
input occurrence in exactly one output, nothing added or dropped (a
permutation) — and empty input yields two empty outputs. -/
theorem fetch_partition_exact (get : GetOracle) (limit block : Nat)
    (positions : List Position) (_hl : 0 < limit) :
    ((fetch_cells_from_dht get limit block positions).1.length
        + (fetch_cells_from_dht get limit block positions).2.length
      = positions.length)
    ∧ ((fetch_cells_from_dht get limit block positions).1.map Cell.position
        ++ (fetch_cells_from_dht get limit block positions).2).Perm positions
    ∧ (positions = [] →
        fetch_cells_from_dht get limit block positions = ([], [])) := by
  have hmaster := fetch_cells_from_dht_eq get limit block positions
  have hperm :
      ((fetch_cells_from_dht get limit block positions).1.map Cell.position
        ++ (fetch_cells_from_dht get limit block positions).2).Perm
        positions := by
    rw [hmaster]
    dsimp only
    rw [map_position_filterMap _ (fetch_cell_position get block)]
    have hno : (fun p => (fetch_cell_from_dht get block p).isNone)
        = (fun p => !(fetch_cell_from_dht get block p).isSome) := by
      funext p
      cases fetch_cell_from_dht get block p <;> rfl
    rw [hno]
    exact List.filter_append_perm _ positions
  refine ⟨?_, hperm, ?_⟩
  · have hlen := hperm.length_eq
    simpa using hlen
  · intro hpos
    subst hpos
    rw [hmaster]
    rfl

/-- C2: the publish ratio is exactly 1 on an empty batch; on a nonempty
batch of n cells with k failed puts it is exactly (n - k) / n (the `f32`
arithmetic is modelled exactly over `Rat`, which is within the claim's
floating-point tolerance); when all puts fail it is 0; and it always
lies in [0, 1]. -/
theorem insert_ratio_exact (put : PutOracle) (ttl now block : Nat)
    (cells : List Cell) :
    (cells = [] → insert_into_dht put ttl now block cells = 1)
    ∧ (cells ≠ [] →
        insert_into_dht put ttl now block cells
          = ((cells.length : Rat)
              - ((cells.filter (putFailed put block ttl now)).length : Rat))
            / (cells.length : Rat))
    ∧ ((cells.filter (putFailed put block ttl now)).length = cells.length →
        cells ≠ [] → insert_into_dht put ttl now block cells = 0)
    ∧ 0 ≤ insert_into_dht put ttl now block cells
    ∧ insert_into_dht put ttl now block cells ≤ 1 := by
  by_cases hc : cells = []
  · subst hc
    have h1 : insert_into_dht put ttl now block [] = 1 := by
      simp [insert_into_dht]
    refine ⟨fun _ => h1, fun h => absurd rfl h, fun _ h => absurd rfl h, ?_, ?_⟩
    · rw [h1]
      norm_num
    · rw [h1]
  · have hn : (0 : Rat) < (cells.length : Rat) := by
      have hpos : 0 < cells.length := List.length_pos.mpr hc
      exact_mod_cast hpos
    have hk : (cells.filter (putFailed put block ttl now)).length
        ≤ cells.length := List.length_filter_le _ _
    have hkq : ((cells.filter (putFailed put block ttl now)).length : Rat)
        ≤ (cells.length : Rat) := by exact_mod_cast hk
    have hkq0 : (0 : Rat)
        ≤ ((cells.filter (putFailed put block ttl now)).length : Rat) := by
      positivity
    have he := insert_into_dht_eq put ttl now block cells hc
    have hdiv : ((cells.filter (putFailed put block ttl now)).length : Rat)
        / (cells.length : Rat) ≤ 1 := by
      rw [div_le_one hn]
      exact hkq
    have hdiv0 : (0 : Rat)
        ≤ ((cells.filter (putFailed put block ttl now)).length : Rat)
          / (cells.length : Rat) := div_nonneg hkq0 (le_of_lt hn)
    refine ⟨fun h => absurd h hc, fun _ => ?_, fun hall _ => ?_, ?_, ?_⟩
    · rw [he]
      field_simp
    · rw [he, hall]
      rw [div_self (ne_of_gt hn)]
      ring
    · rw [he]
      linarith
    · rw [he]
      linarith

/-- C3: per-item errors never fail a batch as a whole: an individual
transport/engine error on a get makes that position "not found" and
(when it occurs in the input) lands it in the unfetched half of the
always-returned fetch result; an individual put error only makes that
cell count toward the failure ratio of the always-returned publish
result. -/
theorem per_item_errors_recovered (get : GetOracle) (put : PutOracle)
    (limit block ttl now : Nat) (positions : List Position) (p : Position)
    (e : String) (cells : List Cell) :
    (get (p.reference block) = Except.error e →
      fetch_cell_from_dht get block p = none)
    ∧ (get (p.reference block) = Except.error e → p ∈ positions →
        p ∈ (fetch_cells_from_dht get limit block positions).2)
    ∧ (cells ≠ [] →
        insert_into_dht put ttl now block cells
          = 1 - ((cells.filter (putFailed put block ttl now)).length : Rat)
                / (cells.length : Rat)) := by
  refine ⟨fetch_cell_error get block p e,
    fun h hp => ?_, insert_into_dht_eq put ttl now block cells⟩
  rw [fetch_cells_from_dht_eq]
  dsimp only
  rw [List.mem_filter]
  refine ⟨hp, ?_⟩
  rw [fetch_cell_error get block p e h]
  rfl

/-- C4: a record value decodes to a cell exactly when its byte length is
COMMITMENT_SIZE + CHUNK_SIZE; for a value of any other length (0,
size - 1, size + 1, …) the position is "not found" and, within a batch,
lands in the unfetched output — never a hard error. -/
theorem decode_length_exact (get : GetOracle) (limit block : Nat)
    (positions : List Position) (p : Position) (r : PeerRecord)
    (rest : List PeerRecord)
    (h : get (p.reference block) = Except.ok (r :: rest)) :
    ((fetch_cell_from_dht get block p).isSome
        ↔ r.record.value.length = COMMITMENT_SIZE + CHUNK_SIZE)
    ∧ (r.record.value.length ≠ COMMITMENT_SIZE + CHUNK_SIZE →
        fetch_cell_from_dht get block p = none)
    ∧ (r.record.value.length ≠ COMMITMENT_SIZE + CHUNK_SIZE →
        0 < limit → p ∈ positions →
        p ∈ (fetch_cells_from_dht get limit block positions).2) := by
  have hf := fetch_cell_first get block p r rest h
  have hnone : r.record.value.length ≠ COMMITMENT_SIZE + CHUNK_SIZE →
      fetch_cell_from_dht get block p = none := by
    intro hl
    rw [hf, if_neg hl]
  refine ⟨?_, hnone, fun hl _ hp => ?_⟩
  · constructor
    · intro hs
      by_contra hl
      rw [hnone hl] at hs
      exact absurd hs (by simp)
    · intro hl
      rw [hf, if_pos hl]
      rfl
  · rw [fetch_cells_from_dht_eq]
    dsimp only
    rw [List.mem_filter]
    refine ⟨hp, ?_⟩
    rw [hnone hl]
    rfl

/-- C5: when the get for a position succeeds with a nonempty record
list, exactly the first record is decoded — the result is the decode of
that first record alone, so any two oracles agreeing on the
first record for this key agree on the fetched cell — and a successful
get with an empty list means "not found". -/
theorem first_record_decoded (get get2 : GetOracle) (block : Nat)
    (p : Position) (r : PeerRecord) (rest rest2 : List PeerRecord) :
    (get (p.reference block) = Except.ok [] →
      fetch_cell_from_dht get block p = none)
    ∧ (get (p.reference block) = Except.ok (r :: rest) →
        fetch_cell_from_dht get block p
          = if r.record.value.length = COMMITMENT_SIZE + CHUNK_SIZE
            then some { position := p, content := r.record.value }
            else none)
    ∧ (get (p.reference block) = Except.ok (r :: rest) →
        get2 (p.reference block) = Except.ok (r :: rest2) →
        fetch_cell_from_dht get block p = fetch_cell_from_dht get2 block p) := by
  refine ⟨fetch_cell_nil get block p, fetch_cell_first get block p r rest,
    fun h1 h2 => ?_⟩
  rw [fetch_cell_first get block p r rest h1,
    fetch_cell_first get2 block p r rest2 h2]

/-- C6: both outputs keep the caller's input order: fetched is the input
list filter-mapped through the per-position fetch and unfetched is the
input list filtered to the positions whose fetch returned `none` —
reconstructed by zipping per-position results against the input list,
not by completion order. -/
theorem outputs_in_input_order (get : GetOracle) (limit block : Nat)
    (positions : List Position) (_hl : 0 < limit) :
    fetch_cells_from_dht get limit block positions
      = (positions.filterMap (fetch_cell_from_dht get block),
         positions.filter
           (fun p => (fetch_cell_from_dht get block p).isNone)) :=
  fetch_cells_from_dht_eq get limit block positions

/-- C7: the DHT key is a pure deterministic function of (block number,
position): the publish-side record key is byte-identical to the
fetch-side reference key, positions with equal coordinates give
byte-identical keys, and distinct positions give distinct keys for the
same block (no collisions). -/
theorem key_deterministic_injective (block ttl now : Nat) (c : Cell)
    (p q : Position) :
    ((DHTCell.dht_record c block ttl now).key = c.position.reference block)
    ∧ (p.row = q.row → p.col = q.col →
        p.reference block = q.reference block)
    ∧ (p ≠ q → p.reference block ≠ q.reference block) := by
  refine ⟨rfl, fun hr hc => ?_,
    fun hne he => hne (reference_inj block p q he)⟩
  have hpq : p = q := by
    cases p
    cases q
    simp_all
  rw [hpq]

/-- C9: encode-then-decode is the identity for a well-sized payload: the
record built for publishing carries exactly the cell's content bytes and
no publisher, and fetching that record back at the cell's position
returns the original cell. -/
theorem encode_decode_roundtrip (c : Cell) (block ttl now : Nat)
    (get : GetOracle)
    (hlen : c.content.length = COMMITMENT_SIZE + CHUNK_SIZE) :
    ((DHTCell.dht_record c block ttl now).value = c.content)
    ∧ ((DHTCell.dht_record c block ttl now).publisher = none)
    ∧ (get (c.position.reference block)
          = Except.ok [{ record := DHTCell.dht_record c block ttl now }] →
        fetch_cell_from_dht get block c.position = some c) := by
  refine ⟨rfl, rfl, fun h => ?_⟩
  rw [fetch_cell_first get block c.position _ [] h]
  have hv : (DHTCell.dht_record c block ttl now).value = c.content := rfl
  rw [hv, if_pos hlen]

/-- C10: every cell returned by a fetch carries exactly the queried
position, copied from the caller's query and never taken from the DHT
record, whatever the oracle returned for that key. -/
theorem returned_position_is_query (get : GetOracle) (block : Nat)
    (p : Position) (c : Cell)
    (h : fetch_cell_from_dht get block p = some c) : c.position = p :=
  fetch_cell_position get block p c h

/-- Witness for C1: a concrete three-position fetch (with a duplicate
position) against an all-error oracle splits 3 = fetched + unfetched. -/
theorem fetch_partition_exact_witness :
    (fetch_cells_from_dht (fun _ => Except.error "engine") 2 7
        [⟨0, 0⟩, ⟨0, 1⟩, ⟨0, 0⟩]).1.length
      + (fetch_cells_from_dht (fun _ => Except.error "engine") 2 7
        [⟨0, 0⟩, ⟨0, 1⟩, ⟨0, 0⟩]).2.length = 3 :=
  (fetch_partition_exact (fun _ => Except.error "engine") 2 7
    [⟨0, 0⟩, ⟨0, 1⟩, ⟨0, 0⟩] (by decide)).1

/-- Witness for C2: one cell whose put fails gives ratio 0. -/
theorem insert_ratio_exact_witness :
    insert_into_dht (fun _ => Except.error "engine") 5 0 7
      [{ position := ⟨0, 0⟩, content := List.replicate 80 0 }] = 0 :=
  (insert_ratio_exact (fun _ => Except.error "engine") 5 0 7
    [{ position := ⟨0, 0⟩, content := List.replicate 80 0 }]).2.2.1
    (by decide) (by decide)

/-- Witness for C3: a position whose get errored lands in the unfetched
output of a concrete batch. -/
theorem per_item_errors_recovered_witness :
    Position.mk 0 1 ∈ (fetch_cells_from_dht (fun _ => Except.error "engine")
      2 7 [⟨0, 0⟩, ⟨0, 1⟩]).2 :=
  (per_item_errors_recovered (fun _ => Except.error "engine")
    (fun _ => Except.error "engine") 2 7 5 0 [⟨0, 0⟩, ⟨0, 1⟩] ⟨0, 1⟩
    "engine" []).2.1 rfl (by decide)

/-- Witness for C4: a one-byte record value (length 1 ≠ 80) puts the
position into the unfetched output of a concrete batch. -/
theorem decode_length_exact_witness :
    Position.mk 1 2 ∈ (fetch_cells_from_dht
      (fun _ => Except.ok [{ record :=
        { key := "k", value := [0], publisher := none, expires := none } }])
      1 7 [⟨1, 2⟩]).2 :=
  (decode_length_exact
    (fun _ => Except.ok [{ record :=
      { key := "k", value := [0], publisher := none, expires := none } }])
    1 7 [⟨1, 2⟩] ⟨1, 2⟩
    { record :=
        { key := "k", value := [0], publisher := none, expires := none } }
    [] rfl).2.2 (by decide) (by decide) (by decide)

/-- Witness for C5: a successful get with an empty record list is "not
found" at a concrete position. -/
theorem first_record_decoded_witness :
    fetch_cell_from_dht (fun _ => Except.ok []) 7 ⟨3, 4⟩ = none :=
  (first_record_decoded (fun _ => Except.ok []) (fun _ => Except.ok [])
    7 ⟨3, 4⟩
    { record :=
        { key := "k", value := [], publisher := none, expires := none } }
    [] []).1 rfl

/-- Witness for C6 at a concrete one-position fetch. -/
theorem outputs_in_input_order_witness :
    fetch_cells_from_dht (fun _ => Except.error "engine") 1 7 [⟨2, 3⟩]
      = ([⟨2, 3⟩].filterMap
          (fetch_cell_from_dht (fun _ => Except.error "engine") 7),
         [⟨2, 3⟩].filter
           (fun p => (fetch_cell_from_dht (fun _ => Except.error "engine")
              7 p).isNone)) :=
  outputs_in_input_order (fun _ => Except.error "engine") 1 7 [⟨2, 3⟩]
    (by decide)

/-- Witness for C7: two distinct concrete positions give distinct keys. -/
theorem key_deterministic_injective_witness :
    Position.reference ⟨0, 0⟩ 7 ≠ Position.reference ⟨0, 1⟩ 7 :=
  (key_deterministic_injective 7 5 0
    { position := ⟨0, 0⟩, content := [] } ⟨0, 0⟩ ⟨0, 1⟩).2.2 (by decide)

/-- Witness for C9: a concrete 80-byte cell survives the
publish-then-fetch round trip. -/
theorem encode_decode_roundtrip_witness :
    fetch_cell_from_dht
      (fun _ => Except.ok
        [⟨DHTCell.dht_record ⟨⟨1, 2⟩, List.replicate 80 0⟩ 7 5 0⟩])
      7 (Position.mk 1 2)
      = some ⟨⟨1, 2⟩, List.replicate 80 0⟩ :=
  (encode_decode_roundtrip ⟨⟨1, 2⟩, List.replicate 80 0⟩ 7 5 0
    (fun _ => Except.ok
      [⟨DHTCell.dht_record ⟨⟨1, 2⟩, List.replicate 80 0⟩ 7 5 0⟩])
    (by decide)).2.2 rfl

/-- Witness for C10: a concrete fetched cell carries the queried
position. -/
theorem returned_position_is_query_witness :
    Cell.position { position := ⟨3, 4⟩, content := List.replicate 80 0 }
      = Position.mk 3 4 :=
  returned_position_is_query
    (fun _ => Except.ok [{ record :=
        { key := "k", value := List.replicate 80 0, publisher := none,
          expires := none } }])
    7 ⟨3, 4⟩ { position := ⟨3, 4⟩, content := List.replicate 80 0 }
    (by decide)

end Avail
